import Mathlib

/-!
Verification of the Mandelbrot renderer (main.go and palette/palette.go).

Modelling conventions:
* Go `float64` field arithmetic (add, mul, div, compare) is modelled exactly
  over `ℚ`; the transcendental smooth-coloring path (`math.Log`, `math.Hypot`)
  is modelled over `ℝ`.
* Go slices become Lean lists; `sort.Slice` with the `<` comparator becomes a
  stable merge sort on `≤` (same multiset, same sortedness of positions).
* The worker pool is modelled by the order in which rows get processed: each
  worker writes only rows it claimed, rows are disjoint, so a render is a fold
  of row writes over some schedule covering every row.
-/

namespace Mandelbrot

/-- An 8-bit RGBA color, mirroring Go `color.RGBA` from `image/color`. -/
structure RGBA where
  r : ℕ
  g : ℕ
  b : ℕ
  a : ℕ
deriving DecidableEq, Repr

/-- A gradient stop, mirroring `palette.Color` (a `Step` position plus a color). -/
structure Stop (K : Type) where
  step : K
  color : RGBA
deriving DecidableEq, Repr

/-- One channel of `toRGBA` (palette.go): Go widens a channel to 16 bits via
`v |= v << 8` (that is, `v * 257`), and `toRGBA` shifts back down by 8 and
truncates to `uint8`. For an 8-bit channel this round trip is the identity. -/
def chan16 (v : ℕ) : ℕ := v * 257 / 256 % 256

/-- `toRGBA` from palette.go. -/
def toRGBA (c : RGBA) : RGBA := ⟨chan16 c.r, chan16 c.g, chan16 c.b, chan16 c.a⟩

/-- `clamp` from palette.go. -/
def clamp {K : Type} [LinearOrderedField K] (v lo hi : K) : K :=
  if v < lo then lo else if v > hi then hi else v

/-- One channel of `lerpRGBA` (palette.go): `uint8(clamp((1-t)*a+t*b, 0, 255))`;
the Go float-to-uint8 conversion truncates, i.e. takes the floor of the
clamped (hence nonnegative) value. -/
def lerpChan {K : Type} [LinearOrderedField K] [FloorRing K] (x y : ℕ) (t : K) : ℕ :=
  (⌊clamp ((1 - t) * (x : K) + t * (y : K)) 0 255⌋).toNat

/-- `lerpRGBA` from palette.go. -/
def lerpRGBA {K : Type} [LinearOrderedField K] [FloorRing K] (a b : RGBA) (t : K) : RGBA :=
  if t ≤ 0 then a
  else if t ≥ 1 then b
  else ⟨lerpChan a.r b.r t, lerpChan a.g b.g t, lerpChan a.b b.b t, lerpChan a.a b.a t⟩

/-- The interval-scanning loop of `Interpolate` (palette.go lines 175-184)
over consecutive stop pairs, including the fall-through that returns the last
color when no bracketing interval accepts `t`. -/
def interpSegs {K : Type} [LinearOrderedField K] [FloorRing K] (t : K) :
    List (Stop K) → RGBA
  | [] => ⟨0, 0, 0, 255⟩
  | [s] => toRGBA s.color
  | s1 :: s2 :: rest =>
    if s1.step ≤ t ∧ t ≤ s2.step then
      lerpRGBA (toRGBA s1.color) (toRGBA s2.color) ((t - s1.step) / (s2.step - s1.step))
    else interpSegs t (s2 :: rest)

/-- `Interpolate` from palette.go: empty maps to opaque black, `t ≤ 0` to the
first color, `t ≥ 1` to the last, otherwise the interval scan runs. -/
def interpolate {K : Type} [LinearOrderedField K] [FloorRing K]
    (cs : List (Stop K)) (t : K) : RGBA :=
  match cs with
  | [] => ⟨0, 0, 0, 255⟩
  | s :: rest =>
    if t ≤ 0 then toRGBA s.color
    else if t ≥ 1 then toRGBA (((s :: rest).getLast (List.cons_ne_nil s rest)).color)
    else interpSegs t (s :: rest)

/-- The `allSpecified` scan of `Normalize` (palette.go lines 85-91):
true iff no stop has `Step == 0`. -/
def allSpecified (cs : List (Stop ℚ)) : Bool :=
  cs.all (fun c => decide (c.step ≠ 0))

/-- Comparison of stops by position. -/
def stepLE (x y : Stop ℚ) : Prop := x.step ≤ y.step

instance : DecidableRel stepLE := fun x y => inferInstanceAs (Decidable (x.step ≤ y.step))

instance : IsTotal (Stop ℚ) stepLE := ⟨fun x y => le_total x.step y.step⟩

instance : IsTrans (Stop ℚ) stepLE := ⟨fun _ _ _ h1 h2 => le_trans h1 h2⟩

/-- `sort.Slice` by `Step`. palette.go sorts with the strict `<` comparator
(order of equal positions unspecified); we model it with a stable, structural
sort on `≤`, which produces the same multiset sorted by position. -/
def sortStops (cs : List (Stop ℚ)) : List (Stop ℚ) :=
  cs.insertionSort stepLE

/-- The two sequential clamping `if`s of the all-specified path
(palette.go lines 95-102). -/
def clamp01 (x : ℚ) : ℚ := if x < 0 then 0 else if x > 1 then 1 else x

/-- The clamp applied to a fixed anchor (palette.go lines 116-121); the
`Step < 0` branch there is dead because anchors satisfy `Step > 0`. -/
def anchorClamp (x : ℚ) : ℚ := if x > 1 then 1 else x

/-- The `fixed` anchor list of (index, clamped step) built by
palette.go lines 108-124 from the stops with strictly positive `Step`. -/
def anchors (cs : List (Stop ℚ)) : List (ℕ × ℚ) :=
  (cs.enum.filter (fun p => decide (0 < p.2.step))).map
    (fun p => (p.1, anchorClamp p.2.step))

/-- Anchoring the first index at 0 and the last at 1 when not already fixed
(palette.go lines 132-140); only reached with a nonempty anchor list. -/
def forceEnds (n : ℕ) (fx : List (ℕ × ℚ)) : List (ℕ × ℚ) :=
  let fx1 := if fx.head?.map Prod.fst = some 0 then fx else (0, 0) :: fx
  if fx1.getLast?.map Prod.fst = some (n - 1) then fx1 else fx1 ++ [(n - 1, 1)]

/-- The value the span-filling loop (palette.go lines 142-156) leaves at index
`i`: scanning consecutive anchor pairs `(ia, sa), (ib, sb)`, the anchor index
itself receives the anchor step and an interior index receives
`sa + ((i-ia)/(ib-ia))·(sb-sa)` (all arithmetic exact over `ℚ`). -/
def fillStep (fx : List (ℕ × ℚ)) (i : ℕ) : ℚ :=
  match fx with
  | [] => 0
  | [(_, sa)] => sa
  | (ia, sa) :: (ib, sb) :: rest =>
    if i ≤ ia then sa
    else if i ≤ ib then sa + (((i : ℚ) - (ia : ℚ)) / ((ib : ℚ) - (ia : ℚ))) * (sb - sa)
    else fillStep ((ib, sb) :: rest) i

/-- `Normalize` from palette.go. Empty input is returned unchanged; if every
`Step` is nonzero the stops are sorted then clamped; otherwise stops with
positive `Step` become anchors: with no anchors the positions are spaced
evenly by index, else the forced anchor spans are filled and the result
sorted. (A single stop with `Step == 0` makes the even spacing divide 0 by 0,
which in Go is a NaN position; `ℚ` renders it as 0.) -/
def normalize (cs : List (Stop ℚ)) : List (Stop ℚ) :=
  if cs.isEmpty then cs
  else if allSpecified cs then
    (sortStops cs).map (fun c => { c with step := clamp01 c.step })
  else
    let n := cs.length
    let fx := anchors cs
    if fx.isEmpty then
      cs.enum.map (fun p => { p.2 with step := (p.1 : ℚ) / ((n : ℚ) - 1) })
    else
      sortStops (cs.enum.map (fun p => { p.2 with step := fillStep (forceEnds n fx) p.1 }))

/-- A complex number as a pair of exact rationals (Go `complex128`). -/
structure Cx where
  re : ℚ
  im : ℚ
deriving DecidableEq, Repr

/-- One loop body step `z = z*z + c` of `mandelbrotIterations`:
complex squaring (`re² - im²`, `2·re·im`) plus `c`. -/
def mandelStep (z c : Cx) : Cx :=
  ⟨z.re * z.re - z.im * z.im + c.re, z.re * z.im + z.im * z.re + c.im⟩

/-- The loop of `mandelbrotIterations` with the remaining budget as fuel;
`n` counts completed iterations, so `n + fuel` equals the original budget. -/
def mandelGo (c : Cx) : ℕ → ℕ → Cx → ℕ × Cx
  | 0, n, z => (n, z)
  | fuel + 1, n, z =>
    let z1 := mandelStep z c
    if z1.re * z1.re + z1.im * z1.im > 4 then (n, z1)
    else mandelGo c fuel (n + 1) z1

/-- `mandelbrotIterations` from main.go: start at `z = 0`, update `z = z*z+c`,
return `(n, z)` at the first `|z|² > 4`, else `(maxIter, z)`. -/
def mandelbrotIterations (c : Cx) (maxIter : ℕ) : ℕ × Cx :=
  mandelGo c maxIter 0 ⟨0, 0⟩

/-- `cmplxAbs` from main.go (`math.Hypot`), over the reals. -/
noncomputable def cmplxAbs (z : Cx) : ℝ :=
  Real.sqrt ((z.re : ℝ) ^ 2 + (z.im : ℝ) ^ 2)

/-- The smooth-coloring branch of `computeRow` (main.go lines 93-106):
guard the magnitude, compute `nu = n + 1 - log(log mag)/log 2`, fall back to
`nu = n` when negative, and divide by the budget. -/
noncomputable def smoothT (iter : ℕ) (z : Cx) (iters : ℕ) : ℝ :=
  let mag0 := cmplxAbs z
  let mag := if mag0 ≤ 0 then 1e-16 else mag0
  let nu0 : ℝ := (iter : ℝ) + 1 - Real.log (Real.log mag) / Real.log 2
  let nu := if nu0 < 0 then (iter : ℝ) else nu0
  nu / (iters : ℝ)

/-- The normalized position `t` that `computeRow` feeds to the palette
(main.go lines 88-112). -/
noncomputable def colorize (iter : ℕ) (z : Cx) (iters : ℕ) (smooth : Bool) : ℝ :=
  if iter ≥ iters then 0
  else if smooth then smoothT iter z iters
  else (iter : ℝ) / (iters : ℝ)

/-- The Coloring Policy's smooth branch exactly as the spec words it in §4.4:
compute `m = |z|`, substitute a small positive epsilon when `m ≤ 0`, compute
`nu = n + 1 - log(log m)/log 2`, fall back to `nu = n` when `nu` is negative,
and set `t = nu / maxIter`. -/
noncomputable def specSmoothColorize (n : ℕ) (z : Cx) (maxIter : ℕ) : ℝ :=
  let m := cmplxAbs z
  let m1 := if m ≤ 0 then 1e-16 else m
  let nu := (n : ℝ) + 1 - Real.log (Real.log m1) / Real.log 2
  (if nu < 0 then (n : ℝ) else nu) / (maxIter : ℝ)

/-- Render parameters of `computeRow` (width, height, viewport, budget, mode). -/
structure RenderParams where
  width : ℕ
  height : ℕ
  xmin : ℚ
  xmax : ℚ
  ymin : ℚ
  ymax : ℚ
  iters : ℕ
  smooth : Bool

/-- The pixel-to-plane mapping of `computeRow` (main.go lines 83-85). -/
def mapPixel (p : RenderParams) (x y : ℕ) : Cx :=
  ⟨p.xmin + ((x : ℚ) / (p.width : ℚ)) * (p.xmax - p.xmin),
   p.ymin + ((y : ℚ) / (p.height : ℚ)) * (p.ymax - p.ymin)⟩

/-- The color `computeRow` stores at pixel `(x, y)`: map the pixel, run the
escape-time evaluator, colorize, and interpolate in the palette. -/
noncomputable def pixelColor (p : RenderParams) (cmap : List (Stop ℚ)) (x y : ℕ) : RGBA :=
  let r := mandelbrotIterations (mapPixel p x y) p.iters
  interpolate (cmap.map (fun s => ((⟨(s.step : ℝ), s.color⟩ : Stop ℝ))))
    (colorize r.1 r.2 p.iters p.smooth)

/-- A raster buffer: a color for every pixel coordinate. -/
def Buffer : Type := ℕ → ℕ → RGBA

/-- The buffer `image.NewRGBA` allocates: zeroed memory. -/
def initBuffer : Buffer := fun _ _ => ⟨0, 0, 0, 0⟩

/-- One `computeRow` call: writes every pixel of row `y` with `x < width`. -/
noncomputable def writeRow (p : RenderParams) (cmap : List (Stop ℚ)) (b : Buffer) (y : ℕ) :
    Buffer :=
  fun x' y' => if y' = y ∧ x' < p.width then pixelColor p cmap x' y' else b x' y'

/-- The render as observed through the shared buffer: the workers of the pool
jointly process the queued rows in some order; since distinct rows write
disjoint pixels, any interleaving acts like a sequential fold of `computeRow`
over the schedule, a list recording each processed row. -/
noncomputable def renderRows (p : RenderParams) (cmap : List (Stop ℚ)) (order : List ℕ) :
    Buffer :=
  order.foldl (writeRow p cmap) initBuffer

/-- The palette registry `ColorPalettes` from palette.go. -/
def colorPalettes : List (String × List (Stop ℚ)) :=
  [("NebulaSpectre",
    [⟨0, ⟨0x09, 0x04, 0x20, 0xff⟩⟩, ⟨15/100, ⟨0x3A, 0x0F, 0x73, 0xff⟩⟩,
     ⟨35/100, ⟨0x8D, 0x1A, 0xA8, 0xff⟩⟩, ⟨55/100, ⟨0xE7, 0x36, 0x7F, 0xff⟩⟩,
     ⟨75/100, ⟨0x3B, 0xD6, 0xC2, 0xff⟩⟩, ⟨1, ⟨0xF0, 0xFF, 0xFF, 0xff⟩⟩]),
   ("MonochromeSlate",
    [⟨0, ⟨0x00, 0x00, 0x00, 0xff⟩⟩, ⟨5/10, ⟨0x70, 0x70, 0x70, 0xff⟩⟩,
     ⟨1, ⟨0xff, 0xff, 0xff, 0xff⟩⟩]),
   ("MetallicChrome",
    [⟨0, ⟨0x06, 0x0b, 0x14, 0xff⟩⟩, ⟨2/10, ⟨0x3a, 0x3f, 0x45, 0xff⟩⟩,
     ⟨45/100, ⟨0x9e, 0xae, 0xb4, 0xff⟩⟩, ⟨7/10, ⟨0xe7, 0xd8, 0xb0, 0xff⟩⟩,
     ⟨1, ⟨0xff, 0xff, 0xff, 0xff⟩⟩]),
   ("ThermalHeat",
    [⟨0, ⟨0x00, 0x00, 0x00, 0xff⟩⟩, ⟨25/100, ⟨0x70, 0x00, 0x00, 0xff⟩⟩,
     ⟨5/10, ⟨0xff, 0x40, 0x00, 0xff⟩⟩, ⟨75/100, ⟨0xff, 0xd0, 0x00, 0xff⟩⟩,
     ⟨1, ⟨0xff, 0xff, 0xff, 0xff⟩⟩]),
   ("AuroraArc",
    [⟨0, ⟨0x01, 0x13, 0x1f, 0xff⟩⟩, ⟨2/10, ⟨0x03, 0x6b, 0x5f, 0xff⟩⟩,
     ⟨45/100, ⟨0x54, 0xe6, 0xb2, 0xff⟩⟩, ⟨7/10, ⟨0x95, 0x43, 0xd6, 0xff⟩⟩,
     ⟨1, ⟨0xf8, 0xf9, 0xff, 0xff⟩⟩])]

/-- `Get` from palette.go: case-sensitive keyword lookup, returning a
normalized copy (`Get` calls `Normalize` on the copy before returning). -/
def getPalette (name : String) : Option (List (Stop ℚ)) :=
  (colorPalettes.find? (fun p => p.1 == name)).map (fun p => normalize p.2)

/-- The command-line configuration read by `main` (main.go lines 18-28);
integers carry sign because the flags accept any `int`. -/
structure Config where
  width : ℤ
  height : ℤ
  iters : ℤ
  procs : ℤ
  palName : String

/-- The only rejection `main` performs before rendering (main.go lines 33-40):
an unknown palette name exits with status 2. No numeric parameter (width,
height, iters, procs) is validated anywhere in `main`. -/
def mainRejects (cfg : Config) : Bool := (getPalette cfg.palName).isNone

/-- The worker-pool loop `for w := 0; w < procs; w++` (main.go line 49)
spawns `max procs 0` workers. -/
def workersSpawned (procs : ℤ) : ℕ := procs.toNat

/-- Rows that get computed: with at least one worker every queued row is
claimed and processed; with zero workers the buffered channel absorbs the
queued rows, `close` and `wg.Wait` return at once, and no row is ever
computed (main.go lines 47-63). -/
def processedRows (procs : ℤ) (height : ℕ) : List ℕ :=
  if workersSpawned procs = 0 then [] else List.range height

/-! ### Escape-time evaluator -/

/-- Helper: a result index strictly below `n + fuel` is only produced by the
escape branch, so the final iterate has squared magnitude above 4. -/
theorem mandelGo_escape_bound (c : Cx) (fuel : ℕ) :
    ∀ (n : ℕ) (z : Cx), (mandelGo c fuel n z).1 < n + fuel →
      4 < (mandelGo c fuel n z).2.re * (mandelGo c fuel n z).2.re +
          (mandelGo c fuel n z).2.im * (mandelGo c fuel n z).2.im := by
  induction fuel with
  | zero =>
    intro n z h
    simp [mandelGo] at h
  | succ k ih =>
    intro n z h
    by_cases hc : 4 < (mandelStep z c).re * (mandelStep z c).re +
        (mandelStep z c).im * (mandelStep z c).im
    · simp [mandelGo, hc]
    · simp only [mandelGo, gt_iff_lt, if_neg hc] at h ⊢
      exact ih (n + 1) (mandelStep z c) (by omega)

/-- C6: for `|c| > 2` (that is `re² + im² > 4`) and any budget `maxIter ≥ 1`,
the evaluator escapes at `n = 0` with final iterate `z = c`: the escape check
runs only after the first update `z = z·z + c`, which from `z = 0` yields `c`. -/
theorem mandelbrot_escapes_immediately (c : Cx) (maxIter : ℕ)
    (hm : 1 ≤ maxIter) (hc : 4 < c.re * c.re + c.im * c.im) :
    mandelbrotIterations c maxIter = (0, c) := by
  obtain ⟨k, rfl⟩ : ∃ k, maxIter = k + 1 := ⟨maxIter - 1, by omega⟩
  have hz : mandelStep ⟨0, 0⟩ c = c := by cases c; simp [mandelStep]
  simp [mandelbrotIterations, mandelGo, hz, hc]

unseal Rat.add Rat.mul Rat.inv Rat.sub in
/-- Witness for C6 at `c = 3 + 0i`, `maxIter = 1`. -/
theorem mandelbrot_escapes_immediately_witness :
    mandelbrotIterations ⟨3, 0⟩ 1 = (0, ⟨3, 0⟩) :=
  mandelbrot_escapes_immediately ⟨3, 0⟩ 1 (by decide) (by decide)

/-! ### Coloring policy -/

/-- C9: with smooth coloring disabled, the policy computes exactly
`t = n / maxIter` for escaped points and exactly `t = 0` for bounded points. -/
theorem colorize_discrete (iter : ℕ) (z : Cx) (iters : ℕ) :
    (iter < iters → colorize iter z iters false = (iter : ℝ) / (iters : ℝ)) ∧
    (iters ≤ iter → colorize iter z iters false = 0) := by
  constructor
  · intro h
    simp [colorize, Nat.not_le.mpr h]
  · intro h
    simp [colorize, h]

/-- Witness for C9 at an escaped point (`n = 2 < 5`) and a bounded one
(`n = 7 ≥ 5`). -/
theorem colorize_discrete_witness :
    colorize 2 ⟨0, 0⟩ 5 false = ((2 : ℕ) : ℝ) / ((5 : ℕ) : ℝ) ∧
    colorize 7 ⟨0, 0⟩ 5 false = 0 :=
  ⟨(colorize_discrete 2 ⟨0, 0⟩ 5).1 (by decide),
   (colorize_discrete 7 ⟨0, 0⟩ 5).2 (by decide)⟩

/-- C1: for every escaped point under smooth coloring, the code computes
exactly the spec's formula `t = nu / maxIter`, `nu = n + 1 − log(log m)/log 2`
with the epsilon guard on `m = |z|` and the `nu = n` fallback. -/
theorem colorize_smooth_matches_spec (iter : ℕ) (z : Cx) (iters : ℕ)
    (h : iter < iters) :
    colorize iter z iters true = specSmoothColorize iter z iters := by
  simp only [colorize, if_neg (Nat.not_le.mpr h), if_pos rfl]
  rfl

/-- Witness for C1 at `n = 0`, `z = 3 + 0i`, `maxIter = 1`. -/
theorem colorize_smooth_matches_spec_witness :
    colorize 0 ⟨3, 0⟩ 1 true = specSmoothColorize 0 ⟨3, 0⟩ 1 :=
  colorize_smooth_matches_spec 0 ⟨3, 0⟩ 1 (by decide)

/-- C10: when the smooth branch runs, the evaluator escaped, hence
`|z|² > 4`, the magnitude exceeds 2, the `mag ≤ 0` guard never substitutes
its epsilon, and the inner logarithm is strictly positive. -/
theorem smooth_guard_unreachable (c : Cx) (maxIter : ℕ)
    (h : (mandelbrotIterations c maxIter).1 < maxIter) :
    ¬ cmplxAbs (mandelbrotIterations c maxIter).2 ≤ 0 ∧
    (if cmplxAbs (mandelbrotIterations c maxIter).2 ≤ 0 then (1e-16 : ℝ)
      else cmplxAbs (mandelbrotIterations c maxIter).2) =
        cmplxAbs (mandelbrotIterations c maxIter).2 ∧
    2 < cmplxAbs (mandelbrotIterations c maxIter).2 ∧
    0 < Real.log (cmplxAbs (mandelbrotIterations c maxIter).2) := by
  set z := (mandelbrotIterations c maxIter).2 with hz
  have hq : 4 < z.re * z.re + z.im * z.im := by
    have := mandelGo_escape_bound c maxIter 0 ⟨0, 0⟩ (by simpa [mandelbrotIterations] using h)
    simpa [mandelbrotIterations, ← hz] using this
  have hr : (4 : ℝ) < (z.re : ℝ) ^ 2 + (z.im : ℝ) ^ 2 := by
    have : ((4 : ℚ) : ℝ) < ((z.re * z.re + z.im * z.im : ℚ) : ℝ) := by exact_mod_cast hq
    push_cast at this
    nlinarith [this]
  have h2 : 2 < cmplxAbs z := by
    rw [cmplxAbs, show (2 : ℝ) = Real.sqrt 4 by
      rw [show (4 : ℝ) = 2 ^ 2 by norm_num, Real.sqrt_sq (by norm_num)]]
    exact Real.sqrt_lt_sqrt (by norm_num) hr
  refine ⟨by linarith, by rw [if_neg (by linarith)], h2, Real.log_pos (by linarith)⟩

unseal Rat.add Rat.mul Rat.inv Rat.sub in
/-- Witness for C10 at `c = 3 + 0i`, `maxIter = 1`. -/
theorem smooth_guard_unreachable_witness :
    ¬ cmplxAbs (mandelbrotIterations ⟨3, 0⟩ 1).2 ≤ 0 ∧
    (if cmplxAbs (mandelbrotIterations ⟨3, 0⟩ 1).2 ≤ 0 then (1e-16 : ℝ)
      else cmplxAbs (mandelbrotIterations ⟨3, 0⟩ 1).2) =
        cmplxAbs (mandelbrotIterations ⟨3, 0⟩ 1).2 ∧
    2 < cmplxAbs (mandelbrotIterations ⟨3, 0⟩ 1).2 ∧
    0 < Real.log (cmplxAbs (mandelbrotIterations ⟨3, 0⟩ 1).2) :=
  smooth_guard_unreachable ⟨3, 0⟩ 1 (by decide)

/-! ### Missing configuration validation (claim C5) -/

/-- C5 exhibit: with `procs = 0` — invalid per the spec — nothing rejects the
configuration (the palette lookup, the only pre-render check, passes), zero
workers are spawned, and no row is ever computed even though the image has
1200 rows; `main` then proceeds to encode the untouched buffer. -/
theorem invalid_procs_not_rejected :
    mainRejects ⟨1600, 1200, 1200, 0, "NebulaSpectre"⟩ = false ∧
    workersSpawned 0 = 0 ∧
    processedRows 0 1200 = [] ∧ 0 < 1200 := by
  refine ⟨rfl, rfl, rfl, by decide⟩

/-! ### Single-stop gradients (claim C8) -/

unseal Rat.add Rat.mul Rat.inv Rat.sub in
/-- C8 counterexample: a gradient whose single stop is explicitly positioned
at 1/2 keeps position 1/2 after Normalize; the claim demands position 0. -/
theorem normalize_single_stop_counterexample :
    normalize [⟨1/2, ⟨255, 0, 0, 255⟩⟩] = [⟨1/2, ⟨255, 0, 0, 255⟩⟩] ∧
    (1/2 : ℚ) ≠ 0 :=
  ⟨by decide, by decide⟩

/-- C8 amended: Interpolate on a single-stop gradient returns that stop's
color for every `t`, and Normalize keeps the (clamped) position of a single
explicitly positioned stop. (A single stop at unspecified position 0 instead
runs into the 0/0 division noted at `normalize`.) -/
theorem single_stop_behavior (s : Stop ℚ) (t : ℚ) :
    interpolate [s] t = toRGBA s.color ∧
    (s.step ≠ 0 → normalize [s] = [⟨clamp01 s.step, s.color⟩]) := by
  constructor
  · by_cases h1 : t ≤ 0
    · simp [interpolate, h1]
    · by_cases h2 : (1 : ℚ) ≤ t
      · simp [interpolate, h1, h2]
      · simp [interpolate, interpSegs, h1, h2]
  · intro h
    have ha : allSpecified [s] = true := by simp [allSpecified, h]
    simp [normalize, ha, sortStops]

unseal Rat.add Rat.mul Rat.inv Rat.sub in
/-- Witness for C8's amended claim at the stop `(1/2, grey)` and `t = 2`. -/
theorem single_stop_behavior_witness :
    interpolate [(⟨1/2, ⟨7, 7, 7, 255⟩⟩ : Stop ℚ)] 2 = toRGBA ⟨7, 7, 7, 255⟩ ∧
    normalize [⟨1/2, ⟨7, 7, 7, 255⟩⟩] = [⟨clamp01 (1/2), ⟨7, 7, 7, 255⟩⟩] :=
  ⟨(single_stop_behavior ⟨1/2, ⟨7, 7, 7, 255⟩⟩ 2).1,
   (single_stop_behavior ⟨1/2, ⟨7, 7, 7, 255⟩⟩ 2).2 (by decide)⟩

/-! ### Interpolation boundaries (claim C3) -/

unseal Rat.add Rat.mul Rat.inv Rat.sub in
/-- C3 counterexample: the gradient with stops at 3/10 and 7/10 is normalized
(Normalize returns it unchanged), yet for `t = 1/5`, which is at or below the
lowest stop position 3/10, Interpolate falls through to the LAST stop's
color, not the first's as the claim requires. -/
theorem interpolate_below_lowest_counterexample :
    normalize [⟨3/10, ⟨255, 0, 0, 255⟩⟩, ⟨7/10, ⟨0, 0, 255, 255⟩⟩] =
      [⟨3/10, ⟨255, 0, 0, 255⟩⟩, ⟨7/10, ⟨0, 0, 255, 255⟩⟩] ∧
    (1/5 : ℚ) ≤ 3/10 ∧
    interpolate [(⟨3/10, ⟨255, 0, 0, 255⟩⟩ : Stop ℚ), ⟨7/10, ⟨0, 0, 255, 255⟩⟩] (1/5) =
      toRGBA ⟨0, 0, 255, 255⟩ ∧
    toRGBA ⟨0, 0, 255, 255⟩ ≠ toRGBA ⟨255, 0, 0, 255⟩ :=
  ⟨by decide, by decide, by decide, by decide⟩

/-- C3 amended: for EVERY nonempty gradient, `t ≤ 0` returns the first
stop's color, `t ≥ 1` returns the last stop's color, `Interpolate(g, 0)` is
the first color and `Interpolate(g, 1)` the last; hence when the lowest stop
position is 0 and the highest is 1 (as Normalize forces whenever a position
was unspecified) the claim's boundary behavior holds: `t` at or below the
lowest position returns the first color, `t` at or above the highest returns
the last. -/
theorem interpolate_boundaries {K : Type} [LinearOrderedField K] [FloorRing K]
    (s : Stop K) (rest : List (Stop K)) (t : K) :
    (t ≤ 0 → interpolate (s :: rest) t = toRGBA s.color) ∧
    (1 ≤ t → interpolate (s :: rest) t =
      toRGBA (((s :: rest).getLast (List.cons_ne_nil s rest)).color)) ∧
    interpolate (s :: rest) 0 = toRGBA s.color ∧
    interpolate (s :: rest) 1 =
      toRGBA (((s :: rest).getLast (List.cons_ne_nil s rest)).color) ∧
    (s.step = 0 → t ≤ s.step → interpolate (s :: rest) t = toRGBA s.color) ∧
    (((s :: rest).getLast (List.cons_ne_nil s rest)).step = 1 →
      ((s :: rest).getLast (List.cons_ne_nil s rest)).step ≤ t →
      interpolate (s :: rest) t =
        toRGBA (((s :: rest).getLast (List.cons_ne_nil s rest)).color)) := by
  have hfirst : ∀ u : K, u ≤ 0 → interpolate (s :: rest) u = toRGBA s.color := by
    intro u hu
    simp [interpolate, hu]
  have hlast : ∀ u : K, 1 ≤ u → interpolate (s :: rest) u =
      toRGBA (((s :: rest).getLast (List.cons_ne_nil s rest)).color) := by
    intro u hu
    have hnot : ¬ u ≤ 0 := by
      intro hle
      exact absurd (le_trans hu hle) (by norm_num)
    simp [interpolate, hnot, hu]
  refine ⟨hfirst t, hlast t, hfirst 0 (le_refl 0), hlast 1 (le_refl 1), ?_, ?_⟩
  · intro h0 ht
    rw [h0] at ht
    exact hfirst t ht
  · intro h1 ht
    rw [h1] at ht
    exact hlast t ht

unseal Rat.add Rat.mul Rat.inv Rat.sub in
/-- Witness for C3's amended claim, on the 3/10, 7/10 gradient whose
endpoints are NOT 0 and 1: `t = -1 ≤ 0` yields the first color, `t = 2 ≥ 1`
the last, and `t = 0` / `t = 1` yield the first / last colors. -/
theorem interpolate_boundaries_witness :
    interpolate [(⟨3/10, ⟨10, 20, 30, 255⟩⟩ : Stop ℚ), ⟨7/10, ⟨40, 50, 60, 255⟩⟩] (-1) =
      toRGBA ⟨10, 20, 30, 255⟩ ∧
    interpolate [(⟨3/10, ⟨10, 20, 30, 255⟩⟩ : Stop ℚ), ⟨7/10, ⟨40, 50, 60, 255⟩⟩] 2 =
      toRGBA ⟨40, 50, 60, 255⟩ ∧
    interpolate [(⟨3/10, ⟨10, 20, 30, 255⟩⟩ : Stop ℚ), ⟨7/10, ⟨40, 50, 60, 255⟩⟩] 0 =
      toRGBA ⟨10, 20, 30, 255⟩ ∧
    interpolate [(⟨3/10, ⟨10, 20, 30, 255⟩⟩ : Stop ℚ), ⟨7/10, ⟨40, 50, 60, 255⟩⟩] 1 =
      toRGBA ⟨40, 50, 60, 255⟩ :=
  ⟨(interpolate_boundaries ⟨3/10, ⟨10, 20, 30, 255⟩⟩ [⟨7/10, ⟨40, 50, 60, 255⟩⟩]
      (-1)).1 (by decide),
   (interpolate_boundaries ⟨3/10, ⟨10, 20, 30, 255⟩⟩ [⟨7/10, ⟨40, 50, 60, 255⟩⟩]
      2).2.1 (by decide),
   (interpolate_boundaries ⟨3/10, ⟨10, 20, 30, 255⟩⟩ [⟨7/10, ⟨40, 50, 60, 255⟩⟩]
      0).2.2.1,
   (interpolate_boundaries ⟨3/10, ⟨10, 20, 30, 255⟩⟩ [⟨7/10, ⟨40, 50, 60, 255⟩⟩]
      1).2.2.2.1⟩

/-! ### Determinism of the parallel render (claim C4) -/

/-- Helper: after folding the row writes of a schedule over a buffer, a pixel
holds `pixelColor` exactly when its row was scheduled (and `x < width`), and
the underlying buffer's color otherwise. -/
theorem renderRows_apply (p : RenderParams) (cmap : List (Stop ℚ)) :
    ∀ (order : List ℕ) (b : Buffer) (x y : ℕ),
      order.foldl (writeRow p cmap) b x y =
        if y ∈ order ∧ x < p.width then pixelColor p cmap x y else b x y := by
  intro order
  induction order with
  | nil => intro b x y; simp
  | cons r rs ih =>
    intro b x y
    rw [List.foldl_cons, ih]
    by_cases hx : x < p.width <;> by_cases hm : y ∈ rs <;> by_cases he : y = r <;>
      simp_all [writeRow]

/-- C4: the rendered buffer does not depend on the schedule: any two complete
draining orders of the row queue — each row claimed exactly once, as with 1
worker or with 8 — write the identical color at every pixel, because a row's
pixels are a pure function of the render parameters. -/
theorem render_deterministic (p : RenderParams) (cmap : List (Stop ℚ))
    (o1 o2 : List ℕ)
    (h1 : o1.Perm (List.range p.height)) (h2 : o2.Perm (List.range p.height)) :
    renderRows p cmap o1 = renderRows p cmap o2 := by
  funext x y
  have m1 : y ∈ o1 ↔ y < p.height := by rw [h1.mem_iff, List.mem_range]
  have m2 : y ∈ o2 ↔ y < p.height := by rw [h2.mem_iff, List.mem_range]
  show o1.foldl (writeRow p cmap) initBuffer x y = o2.foldl (writeRow p cmap) initBuffer x y
  rw [renderRows_apply, renderRows_apply]
  simp only [m1, m2]

/-- Witness for C4: a 3-row render processed in order [0, 1, 2] and in the
scrambled order [2, 0, 1] produces the same buffer. -/
theorem render_deterministic_witness :
    renderRows ⟨2, 3, -2, 1, -1, 1, 10, true⟩ [] [0, 1, 2] =
      renderRows ⟨2, 3, -2, 1, -1, 1, 10, true⟩ [] [2, 0, 1] :=
  render_deterministic ⟨2, 3, -2, 1, -1, 1, 10, true⟩ [] [0, 1, 2] [2, 0, 1]
    (by decide) (by decide)

/-! ### Normalize: helper lemmas -/

theorem clamp01_mem (x : ℚ) : 0 ≤ clamp01 x ∧ clamp01 x ≤ 1 := by
  unfold clamp01
  by_cases h1 : x < 0
  · rw [if_pos h1]; norm_num
  · rw [if_neg h1]
    by_cases h2 : x > 1
    · rw [if_pos h2]; norm_num
    · rw [if_neg h2]
      push_neg at h1 h2
      exact ⟨h1, h2⟩

theorem clamp01_eq_self {x : ℚ} (h0 : 0 ≤ x) (h1 : x ≤ 1) : clamp01 x = x := by
  unfold clamp01
  rw [if_neg (by linarith), if_neg (by linarith)]

theorem clamp01_mono {x y : ℚ} (h : x ≤ y) : clamp01 x ≤ clamp01 y := by
  unfold clamp01
  by_cases hx : x < 0 <;> by_cases hy : y < 0 <;>
    by_cases hx1 : x > 1 <;> by_cases hy1 : y > 1 <;>
      simp only [hx, hy, hx1, hy1, if_true, if_false] <;> linarith

theorem clamp01_pos {x : ℚ} (h : 0 < x) : 0 < clamp01 x := by
  unfold clamp01
  rw [if_neg (by linarith)]
  by_cases h2 : x > 1
  · rw [if_pos h2]; norm_num
  · rw [if_neg h2]; exact h

theorem anchorClamp_mem {x : ℚ} (h : 0 < x) :
    0 < anchorClamp x ∧ anchorClamp x ≤ 1 := by
  unfold anchorClamp
  by_cases h1 : x > 1
  · rw [if_pos h1]; norm_num
  · rw [if_neg h1]; exact ⟨h, not_lt.mp h1⟩

theorem sortStops_sorted (cs : List (Stop ℚ)) : List.Sorted stepLE (sortStops cs) :=
  List.sorted_insertionSort stepLE cs

theorem sortStops_perm (cs : List (Stop ℚ)) : (sortStops cs).Perm cs :=
  List.perm_insertionSort stepLE cs

theorem sortStops_eq_self {cs : List (Stop ℚ)} (h : List.Sorted stepLE cs) :
    sortStops cs = cs :=
  List.Sorted.insertionSort_eq h

/-- The enumeration of a list has strictly increasing indices. -/
theorem enum_pairwise (cs : List (Stop ℚ)) :
    cs.enum.Pairwise (fun p q => p.1 < q.1) := by
  have h0 := List.pairwise_lt_range cs.length
  rw [← List.enum_map_fst cs] at h0
  exact List.pairwise_map.mp h0

/-- Anchor indices are strictly increasing. -/
theorem anchors_pairwise (cs : List (Stop ℚ)) :
    (anchors cs).Pairwise (fun p q => p.1 < q.1) := by
  unfold anchors
  rw [List.pairwise_map]
  exact ((enum_pairwise cs).filter _)

/-- Anchor steps lie in (0, 1] and anchor indices are below the length. -/
theorem anchors_mem {cs : List (Stop ℚ)} {p : ℕ × ℚ} (hp : p ∈ anchors cs) :
    0 < p.2 ∧ p.2 ≤ 1 ∧ p.1 < cs.length := by
  unfold anchors at hp
  obtain ⟨q, hq, rfl⟩ := List.mem_map.mp hp
  have hq' := List.mem_filter.mp hq
  have hpos : 0 < q.2.step := of_decide_eq_true hq'.2
  obtain ⟨i, s⟩ := q
  have hb := List.mem_enumFrom (show (i, s) ∈ cs.enumFrom 0 from hq'.1)
  have hc := anchorClamp_mem hpos
  exact ⟨hc.1, hc.2, by omega⟩

/-- Membership in the anchors determines the stop at that index. -/
theorem anchors_mem_getElem {cs : List (Stop ℚ)} {i : ℕ} {s : ℚ}
    (hp : (i, s) ∈ anchors cs) :
    ∃ hi : i < cs.length, 0 < (cs.get ⟨i, hi⟩).step ∧
      s = anchorClamp (cs.get ⟨i, hi⟩).step := by
  unfold anchors at hp
  obtain ⟨q, hq, hfq⟩ := List.mem_map.mp hp
  have hq' := List.mem_filter.mp hq
  have hpos : 0 < q.2.step := of_decide_eq_true hq'.2
  obtain ⟨j, c⟩ := q
  have hj : j = i := congrArg Prod.fst hfq
  have hs : anchorClamp c.step = s := congrArg Prod.snd hfq
  subst hj
  subst hs
  have hb := List.mem_enumFrom (show (j, c) ∈ cs.enumFrom 0 from hq'.1)
  have hc : c = cs[j - 0] := hb.2.2
  simp only [Nat.sub_zero] at hc
  refine ⟨by omega, ?_, ?_⟩
  · rw [List.get_eq_getElem, ← hc]
    exact hpos
  · rw [List.get_eq_getElem, ← hc]

/-- No anchor carries index 0 when the first stop's position is not positive. -/
theorem anchors_ne_zero_idx {cs : List (Stop ℚ)} (hne : cs ≠ [])
    (h : (cs.head hne).step ≤ 0) : ∀ p ∈ anchors cs, p.1 ≠ 0 := by
  rintro ⟨i, s⟩ hp rfl
  obtain ⟨hi, hpos, _⟩ := anchors_mem_getElem hp
  rw [show cs.get ⟨0, hi⟩ = cs.head hne by
    rw [List.get_eq_getElem, List.head_eq_getElem]] at hpos
  linarith

/-- No anchor carries the last index when the last stop's position is not
positive. -/
theorem anchors_ne_last_idx {cs : List (Stop ℚ)} (hne : cs ≠ [])
    (h : (cs.getLast hne).step ≤ 0) : ∀ p ∈ anchors cs, p.1 ≠ cs.length - 1 := by
  rintro ⟨i, s⟩ hp hi
  obtain ⟨hlt, hpos, _⟩ := anchors_mem_getElem hp
  subst hi
  rw [show cs.get ⟨cs.length - 1, hlt⟩ = cs.getLast hne by
    rw [List.get_eq_getElem, List.getLast_eq_getElem]] at hpos
  linarith

/-- Elements of `forceEnds` come from the anchors or are a forced end. -/
theorem forceEnds_subset {n : ℕ} {fx : List (ℕ × ℚ)} :
    ∀ p ∈ forceEnds n fx, p ∈ fx ∨ p = (0, 0) ∨ p = (n - 1, 1) := by
  intro p hp
  simp only [forceEnds] at hp
  by_cases h1 : fx.head?.map Prod.fst = some 0
  · rw [if_pos h1] at hp
    by_cases h2 : fx.getLast?.map Prod.fst = some (n - 1)
    · rw [if_pos h2] at hp; exact Or.inl hp
    · rw [if_neg h2] at hp
      rcases List.mem_append.mp hp with h | h
      · exact Or.inl h
      · simp only [List.mem_singleton] at h; exact Or.inr (Or.inr h)
  · rw [if_neg h1] at hp
    by_cases h2 : ((0, 0) :: fx).getLast?.map Prod.fst = some (n - 1)
    · rw [if_pos h2] at hp
      rcases List.mem_cons.mp hp with h | h
      · exact Or.inr (Or.inl h)
      · exact Or.inl h
    · rw [if_neg h2] at hp
      rcases List.mem_append.mp hp with h | h
      · rcases List.mem_cons.mp h with h3 | h3
        · exact Or.inr (Or.inl h3)
        · exact Or.inl h3
      · simp only [List.mem_singleton] at h; exact Or.inr (Or.inr h)

/-- Steps of `forceEnds` stay within [0, 1] when the anchors' do. -/
theorem forceEnds_bounds {n : ℕ} {fx : List (ℕ × ℚ)}
    (h : ∀ p ∈ fx, 0 ≤ p.2 ∧ p.2 ≤ 1) :
    ∀ p ∈ forceEnds n fx, 0 ≤ p.2 ∧ p.2 ≤ 1 := by
  intro p hp
  rcases forceEnds_subset p hp with hm | rfl | rfl
  · exact h p hm
  · exact ⟨le_refl 0, by norm_num⟩
  · exact ⟨by norm_num, le_refl 1⟩

/-- When no anchor has index 0, `forceEnds` prepends the (0, 0) anchor. -/
theorem forceEnds_head {n : ℕ} {fx : List (ℕ × ℚ)} (hne : fx ≠ [])
    (h : ∀ p ∈ fx, p.1 ≠ 0) : (forceEnds n fx).head? = some (0, 0) := by
  simp only [forceEnds]
  have h1 : ¬ fx.head?.map Prod.fst = some 0 := by
    cases fx with
    | nil => simp at hne
    | cons a t =>
      simp only [List.head?_cons, Option.map_some']
      intro hc
      exact h a (by simp) (by simpa using hc)
  rw [if_neg h1]
  by_cases h2 : ((0, 0) :: fx).getLast?.map Prod.fst = some (n - 1)
  · rw [if_pos h2]; rfl
  · rw [if_neg h2, List.cons_append]; rfl

/-- When no anchor has the last index, `forceEnds` appends the (n-1, 1)
anchor at the very end. -/
theorem forceEnds_append {n : ℕ} {fx : List (ℕ × ℚ)} (hne : fx ≠ [])
    (h : ∀ p ∈ fx, p.1 ≠ n - 1) :
    ∃ fx1, forceEnds n fx = fx1 ++ [(n - 1, 1)] ∧
      (fx1 = fx ∨ fx1 = (0, 0) :: fx) := by
  simp only [forceEnds]
  have hfxlast : fx.getLast?.map Prod.fst ≠ some (n - 1) := by
    rw [List.getLast?_eq_getLast fx hne, Option.map_some']
    intro hc
    exact h _ (List.getLast_mem hne) (by simpa using hc)
  by_cases h1 : fx.head?.map Prod.fst = some 0
  · rw [if_pos h1, if_neg hfxlast]
    exact ⟨fx, rfl, Or.inl rfl⟩
  · rw [if_neg h1]
    have hclast : ((0, 0) :: fx).getLast?.map Prod.fst ≠ some (n - 1) := by
      rw [List.getLast?_eq_getLast _ (List.cons_ne_nil _ _), Option.map_some']
      rw [List.getLast_cons hne]
      intro hc
      exact h _ (List.getLast_mem hne) (by simpa using hc)
    rw [if_neg hclast]
    exact ⟨(0, 0) :: fx, rfl, Or.inr rfl⟩

/-- `forceEnds` keeps indices strictly increasing (when n ≥ 2 and the anchor
indices are all below n - 1). -/
theorem forceEnds_pairwise {n : ℕ} {fx : List (ℕ × ℚ)} (hn : 2 ≤ n)
    (hp : fx.Pairwise (fun p q => p.1 < q.1))
    (hidx : ∀ p ∈ fx, p.1 < n - 1) :
    (forceEnds n fx).Pairwise (fun p q => p.1 < q.1) := by
  simp only [forceEnds]
  by_cases h1 : fx.head?.map Prod.fst = some 0
  · by_cases h2 : fx.getLast?.map Prod.fst = some (n - 1)
    · rw [if_pos h1, if_pos h2]; exact hp
    · rw [if_pos h1, if_neg h2, List.pairwise_append]
      refine ⟨hp, by simp, ?_⟩
      intro a ha b hb
      simp only [List.mem_singleton] at hb
      subst hb
      exact hidx a ha
  · have hpos : ∀ p ∈ fx, 0 < p.1 := by
      cases fx with
      | nil => simp
      | cons a t =>
        intro p hpm
        have ha0 : a.1 ≠ 0 := by
          intro hc
          exact h1 (by simp [hc])
        rcases List.mem_cons.mp hpm with rfl | hm
        · omega
        · have := (List.pairwise_cons.mp hp).1 p hm
          omega
    have hp2 : ((0, 0) :: fx).Pairwise (fun p q => p.1 < q.1) :=
      List.pairwise_cons.mpr ⟨fun p hm => hpos p hm, hp⟩
    by_cases h2 : ((0, 0) :: fx).getLast?.map Prod.fst = some (n - 1)
    · rw [if_neg h1, if_pos h2]; exact hp2
    · rw [if_neg h1, if_neg h2, List.pairwise_append]
      refine ⟨hp2, by simp, ?_⟩
      intro a ha b hb
      simp only [List.mem_singleton] at hb
      subst hb
      rcases List.mem_cons.mp ha with rfl | hm
      · show (0 : ℕ) < n - 1
        omega
      · exact hidx a hm

/-- The span filler writes the head anchor's step at index 0 when the head
anchor sits at index 0. -/
theorem fillStep_zero_of_head {fx : List (ℕ × ℚ)} {s : ℚ}
    (h : fx.head? = some (0, s)) : fillStep fx 0 = s := by
  cases fx with
  | nil => simp at h
  | cons a t =>
    obtain rfl : a = (0, s) := by simpa using h
    cases t with
    | nil => rfl
    | cons b r =>
      obtain ⟨ib, sb⟩ := b
      simp [fillStep]

/-- Every value the span filler produces lies between the anchor bounds. -/
theorem fillStep_bounds : ∀ (fx : List (ℕ × ℚ)) (i : ℕ),
    (∀ p ∈ fx, 0 ≤ p.2 ∧ p.2 ≤ 1) → 0 ≤ fillStep fx i ∧ fillStep fx i ≤ 1
  | [], i, _ => by simp [fillStep]
  | [(j, s)], i, h => by simpa [fillStep] using h (j, s) (by simp)
  | (ia, sa) :: (ib, sb) :: rest, i, h => by
    have ha := h (ia, sa) (by simp)
    have hb := h (ib, sb) (by simp)
    by_cases h1 : i ≤ ia
    · simpa [fillStep, h1] using ha
    · by_cases h2 : i ≤ ib
      · simp only [fillStep, if_neg h1, if_pos h2]
        have hab : ia < ib := by omega
        have hup : (ia : ℚ) < i := by exact_mod_cast Nat.lt_of_not_le h1
        have hdown : (i : ℚ) ≤ ib := by exact_mod_cast h2
        have hden : (0 : ℚ) < (ib : ℚ) - ia := by
          have : (ia : ℚ) < ib := by exact_mod_cast hab
          linarith
        set F : ℚ := ((i : ℚ) - ia) / ((ib : ℚ) - ia) with hF
        have hF0 : 0 ≤ F := div_nonneg (by linarith) (le_of_lt hden)
        have hF1 : F ≤ 1 := by
          rw [hF, div_le_one hden]
          linarith
        constructor
        · nlinarith [mul_nonneg hF0 hb.1, mul_nonneg (sub_nonneg.mpr hF1) ha.1]
        · nlinarith [mul_le_of_le_one_right (le_of_lt hden) hF1,
            mul_nonneg hF0 hb.1, mul_nonneg (sub_nonneg.mpr hF1) ha.1]
      · simp only [fillStep, if_neg h1, if_neg h2]
        exact fillStep_bounds ((ib, sb) :: rest) i (fun p hp => h p (by simp [hp]))

/-- With every anchor step positive, every filled value is positive. -/
theorem fillStep_pos_of_all_pos : ∀ (fx : List (ℕ × ℚ)) (i : ℕ), fx ≠ [] →
    (∀ p ∈ fx, 0 < p.2) → 0 < fillStep fx i
  | [], _, hne, _ => by simp at hne
  | [(j, s)], i, _, h => by simpa [fillStep] using h (j, s) (by simp)
  | (ia, sa) :: (ib, sb) :: rest, i, _, h => by
    have ha := h (ia, sa) (by simp)
    have hb := h (ib, sb) (by simp)
    by_cases h1 : i ≤ ia
    · simpa [fillStep, h1] using ha
    · by_cases h2 : i ≤ ib
      · simp only [fillStep, if_neg h1, if_pos h2]
        have hab : ia < ib := by omega
        have hup : (ia : ℚ) < i := by exact_mod_cast Nat.lt_of_not_le h1
        have hdown : (i : ℚ) ≤ ib := by exact_mod_cast h2
        have hden : (0 : ℚ) < (ib : ℚ) - ia := by
          have : (ia : ℚ) < ib := by exact_mod_cast hab
          linarith
        have hF0 : 0 < ((i : ℚ) - ia) / ((ib : ℚ) - ia) :=
          div_pos (by linarith) hden
        have hF1 : ((i : ℚ) - ia) / ((ib : ℚ) - ia) ≤ 1 := by
          rw [div_le_one hden]; linarith
        nlinarith
      · simp only [fillStep, if_neg h1, if_neg h2]
        exact fillStep_pos_of_all_pos ((ib, sb) :: rest) i (by simp)
          (fun p hp => h p (by simp [hp]))

/-- After a (0, 0) head anchor followed by positive anchors, every index
from 1 on receives a positive value. -/
theorem fillStep_cons_zero_pos {fx2 : List (ℕ × ℚ)} (hne : fx2 ≠ [])
    (h : ∀ p ∈ fx2, 0 < p.2) {i : ℕ} (hi : 1 ≤ i) :
    0 < fillStep ((0, 0) :: fx2) i := by
  cases fx2 with
  | nil => simp at hne
  | cons b r =>
    obtain ⟨ib, sb⟩ := b
    have hb := h (ib, sb) (by simp)
    by_cases h2 : i ≤ ib
    · simp only [fillStep, if_neg (by omega : ¬ i ≤ 0), if_pos h2]
      have hib : 0 < ib := by omega
      have hup : (0 : ℚ) < i := by exact_mod_cast hi
      have hdown : (i : ℚ) ≤ ib := by exact_mod_cast h2
      have hden : (0 : ℚ) < (ib : ℚ) - 0 := by
        have : (0 : ℚ) < (ib : ℚ) := by exact_mod_cast hib
        linarith
      have hF0 : 0 < ((i : ℚ) - 0) / ((ib : ℚ) - 0) := div_pos (by linarith) hden
      nlinarith
    · simp only [fillStep, if_neg (by omega : ¬ i ≤ 0), if_neg h2]
      exact fillStep_pos_of_all_pos ((ib, sb) :: r) i (by simp)
        (fun p hp => h p hp)

/-- The last anchor's index receives the last anchor's step. -/
theorem fillStep_getLast : ∀ (fx : List (ℕ × ℚ)) (hne : fx ≠ []),
    fx.Pairwise (fun p q => p.1 < q.1) →
    fillStep fx (fx.getLast hne).1 = (fx.getLast hne).2
  | [(j, s)], _, _ => by simp [fillStep]
  | (ia, sa) :: (ib, sb) :: rest, _, hp => by
    rw [List.getLast_cons (List.cons_ne_nil (ib, sb) rest)]
    have htail := (List.pairwise_cons.mp hp).2
    have hrel := (List.pairwise_cons.mp hp).1
    have hlast_mem := List.getLast_mem (List.cons_ne_nil (ib, sb) rest)
    have hialt : ia < (((ib, sb) :: rest).getLast (List.cons_ne_nil _ _)).1 :=
      hrel _ hlast_mem
    cases rest with
    | nil =>
      simp only [List.getLast_singleton]
      have hab : ia < ib := by simpa using hialt
      simp only [fillStep, if_neg (by omega : ¬ ib ≤ ia), if_pos (le_refl ib)]
      have hden : (ib : ℚ) - ia ≠ 0 := by
        have : (ia : ℚ) < ib := by exact_mod_cast hab
        linarith
      rw [div_self hden, one_mul]
      ring
    | cons c rs =>
      have hlast_tail : (((ib, sb) :: c :: rs).getLast (List.cons_ne_nil _ _)) =
          ((c :: rs).getLast (List.cons_ne_nil c rs)) :=
        List.getLast_cons (List.cons_ne_nil c rs)
      have hib_lt : ib < ((c :: rs).getLast (List.cons_ne_nil c rs)).1 :=
        (List.pairwise_cons.mp htail).1 _ (List.getLast_mem _)
      rw [hlast_tail]
      have hi1 : ¬ ((c :: rs).getLast (List.cons_ne_nil c rs)).1 ≤ ia := by
        rw [hlast_tail] at hialt
        omega
      have hi2 : ¬ ((c :: rs).getLast (List.cons_ne_nil c rs)).1 ≤ ib := by omega
      have := fillStep_getLast ((ib, sb) :: c :: rs) (List.cons_ne_nil _ _) htail
      rw [hlast_tail] at this
      simp only [fillStep, if_neg hi1, if_neg hi2] at this ⊢
      exact this

/-- On a consecutively indexed anchor list, the span filler reproduces each
anchor's own value (each span has width 1, so the interpolation is exact). -/
theorem fillStep_enumFrom : ∀ (vals : List ℚ) (k i : ℕ), k ≤ i →
    ∀ h2 : i - k < vals.length,
    fillStep (List.enumFrom k vals) i = vals.get ⟨i - k, h2⟩
  | [], k, i, h1, h2 => by simp at h2
  | [v], k, i, h1, h2 => by
    have hik : i = k := by
      simp only [List.length_singleton] at h2
      omega
    subst hik
    simp [fillStep]
  | v1 :: v2 :: rest, k, i, h1, h2 => by
    simp only [List.enumFrom_cons]
    by_cases hik : i ≤ k
    · have : i = k := le_antisymm hik h1
      subst this
      simp [fillStep]
    · by_cases hik1 : i ≤ k + 1
      · have : i = k + 1 := by omega
        subst this
        simp only [fillStep, if_neg (by omega : ¬ k + 1 ≤ k), if_pos (le_refl (k + 1))]
        have hden : ((k : ℚ) + 1) - k = 1 := by ring
        have hcast : ((k + 1 : ℕ) : ℚ) = (k : ℚ) + 1 := by push_cast; ring
        rw [hcast, hden, div_self (by norm_num : (1 : ℚ) ≠ 0), one_mul]
        have hidx : k + 1 - k = 1 := by omega
        simp only [hidx, List.get]
        ring
      · have hrec := fillStep_enumFrom (v2 :: rest) (k + 1) i (by omega)
          (by simp only [List.length_cons]; simp only [List.length_cons] at h2; omega)
        simp only [List.enumFrom_cons] at hrec
        have hstep : fillStep ((k, v1) :: (k + 1, v2) :: List.enumFrom (k + 2) rest) i =
            fillStep ((k + 1, v2) :: List.enumFrom (k + 2) rest) i := by
          simp only [fillStep]
          rw [if_neg (by omega : ¬ i ≤ k), if_neg (by omega : ¬ i ≤ k + 1)]
        rw [hstep, hrec]
        have hidx : i - k = (i - (k + 1)) + 1 := by omega
        simp only [hidx, List.get]

/-- In a sorted stop list with nonnegative steps containing a step-0 element,
the first step is 0. -/
theorem sorted_map_head?_zero {l : List (Stop ℚ)} (hs : List.Sorted stepLE l)
    (hb : ∀ s ∈ l, 0 ≤ s.step) {x : Stop ℚ} (hx : x ∈ l) (h0 : x.step = 0) :
    (l.map Stop.step).head? = some 0 := by
  cases l with
  | nil => simp at hx
  | cons a t =>
    simp only [List.map_cons, List.head?_cons, Option.some.injEq]
    have h1 : 0 ≤ a.step := hb a (by simp)
    have h2 : a.step ≤ x.step := by
      rcases List.mem_cons.mp hx with rfl | hm
      · exact le_refl _
      · exact (List.pairwise_cons.mp hs).1 x hm
    rw [h0] at h2
    exact le_antisymm h2 h1

/-- In a sorted stop list, every step is at most the last one. -/
theorem sorted_le_getLast : ∀ {l : List (Stop ℚ)} (hne : l ≠ []),
    List.Sorted stepLE l → ∀ x ∈ l, x.step ≤ (l.getLast hne).step
  | [], hne, _ => by simp at hne
  | [a], _, _ => by
    intro x hx
    rcases List.mem_singleton.mp hx with rfl
    simp
  | a :: b :: t, _, hs => by
    intro x hx
    rw [List.getLast_cons (List.cons_ne_nil b t)]
    rcases List.mem_cons.mp hx with rfl | hm
    · exact (List.pairwise_cons.mp hs).1 _ (List.getLast_mem _)
    · exact sorted_le_getLast (List.cons_ne_nil b t) (List.pairwise_cons.mp hs).2 x hm

/-- In a sorted stop list with steps at most 1 containing a step-1 element,
the last step is 1. -/
theorem sorted_map_getLast?_one {l : List (Stop ℚ)} (hs : List.Sorted stepLE l)
    (hb : ∀ s ∈ l, s.step ≤ 1) {x : Stop ℚ} (hx : x ∈ l) (h1 : x.step = 1) :
    (l.map Stop.step).getLast? = some 1 := by
  have hne : l ≠ [] := by rintro rfl; simp at hx
  rw [List.getLast?_map, List.getLast?_eq_getLast l hne, Option.map_some']
  have hmax : x.step ≤ (l.getLast hne).step := sorted_le_getLast hne hs x hx
  have hle : (l.getLast hne).step ≤ 1 := hb _ (List.getLast_mem hne)
  rw [h1] at hmax
  simp [le_antisymm hle hmax]

/-- The all-specified branch of `Normalize`: sort, then clamp. -/
theorem normalize_allSpec {cs : List (Stop ℚ)} (h : allSpecified cs = true) :
    normalize cs = (sortStops cs).map (fun c => { c with step := clamp01 c.step }) := by
  cases cs with
  | nil => simp [normalize, sortStops]
  | cons a t => simp [normalize, h]

/-- The no-anchors branch of `Normalize`: even spacing by index. -/
theorem normalize_evenly {cs : List (Stop ℚ)} (h : allSpecified cs = false)
    (ha : anchors cs = []) :
    normalize cs = cs.enum.map
      (fun p => { p.2 with step := (p.1 : ℚ) / ((cs.length : ℚ) - 1) }) := by
  cases cs with
  | nil => simp [normalize]
  | cons a t => simp [normalize, h, ha]

/-- The anchored branch of `Normalize`: force the ends, fill the spans, sort. -/
theorem normalize_anchored {cs : List (Stop ℚ)} (h : allSpecified cs = false)
    (ha : anchors cs ≠ []) :
    normalize cs = sortStops (cs.enum.map
      (fun p => { p.2 with
        step := fillStep (forceEnds cs.length (anchors cs)) p.1 })) := by
  cases cs with
  | nil => simp [anchors] at ha
  | cons a t =>
    have hb : (anchors (a :: t)).isEmpty = false := by
      cases hmem : anchors (a :: t) with
      | nil => exact absurd hmem ha
      | cons x l => rfl
    simp [normalize, h, hb]

/-- A wrapper for `fillStep_getLast` taking the last anchor's value. -/
theorem fillStep_getLast_eq {fx : List (ℕ × ℚ)} (hne : fx ≠ [])
    (hp : fx.Pairwise (fun p q => p.1 < q.1)) {j : ℕ} {s : ℚ}
    (hj : fx.getLast hne = (j, s)) : fillStep fx j = s := by
  have h0 := fillStep_getLast fx hne hp
  rw [hj] at h0
  exact h0

/-- Master invariants of `Normalize`: the result is sorted with steps in
[0, 1], and when some position was unspecified the first/last result
positions are forced to 0/1 provided the first/last input stop was not
explicitly positioned. (Gradients with a single unspecified stop divide 0 by
0 in the code and are excluded by the size hypothesis.) -/
theorem normalize_master (cs : List (Stop ℚ)) (hne : cs ≠ [])
    (hsz : allSpecified cs = true ∨ 2 ≤ cs.length) :
    List.Sorted stepLE (normalize cs) ∧
    (∀ s ∈ normalize cs, 0 ≤ s.step ∧ s.step ≤ 1) ∧
    (allSpecified cs = false →
      ((cs.head hne).step ≤ 0 → ((normalize cs).map Stop.step).head? = some 0) ∧
      ((cs.getLast hne).step ≤ 0 →
        ((normalize cs).map Stop.step).getLast? = some 1)) := by
  by_cases hs : allSpecified cs = true
  · rw [normalize_allSpec hs]
    refine ⟨?_, ?_, ?_⟩
    · rw [List.Sorted, List.pairwise_map]
      exact (sortStops_sorted cs).imp (fun hab => clamp01_mono hab)
    · intro s hsm
      obtain ⟨c, _, rfl⟩ := List.mem_map.mp hsm
      exact clamp01_mem c.step
    · intro hfalse
      rw [hs] at hfalse
      cases hfalse
  · have hs' : allSpecified cs = false := by
      cases hb : allSpecified cs
      · rfl
      · exact absurd hb hs
    have hn2 : 2 ≤ cs.length := hsz.resolve_left hs
    by_cases ha : anchors cs = []
    · rw [normalize_evenly hs' ha]
      set d : ℚ := (cs.length : ℚ) - 1 with hd
      have hd1 : (1 : ℚ) ≤ d := by
        have h2 : (2 : ℚ) ≤ (cs.length : ℚ) := by exact_mod_cast hn2
        rw [hd]; linarith
      have hdpos : (0 : ℚ) < d := by linarith
      refine ⟨?_, ?_, ?_⟩
      · rw [List.Sorted, List.pairwise_map]
        refine (enum_pairwise cs).imp ?_
        intro p q hpq
        show ((p.1 : ℚ)) / d ≤ (q.1 : ℚ) / d
        have hle : (p.1 : ℚ) ≤ (q.1 : ℚ) := by exact_mod_cast le_of_lt hpq
        gcongr
      · intro s hsm
        obtain ⟨p, hp, rfl⟩ := List.mem_map.mp hsm
        obtain ⟨i, c⟩ := p
        have hb := List.mem_enumFrom (show (i, c) ∈ cs.enumFrom 0 from hp)
        have hilen : i < cs.length := by omega
        constructor
        · show (0 : ℚ) ≤ (i : ℚ) / d
          exact div_nonneg (by positivity) (le_of_lt hdpos)
        · show (i : ℚ) / d ≤ 1
          rw [div_le_one hdpos]
          have hc : (i : ℚ) + 1 ≤ (cs.length : ℚ) := by exact_mod_cast hilen
          rw [hd]; linarith
      · intro _
        constructor
        · intro _
          obtain ⟨a, t, rfl⟩ := List.exists_cons_of_ne_nil hne
          simp only [List.enum_cons, List.map_cons, List.head?_cons,
            Option.some.injEq]
          show ((0 : ℕ) : ℚ) / d = 0
          simp
        · intro _
          have hLne : cs.enum.map (fun p : ℕ × Stop ℚ =>
              { p.2 with step := (p.1 : ℚ) / d }) ≠ [] := by
            intro hnil
            have := congrArg List.length hnil
            simp at this
            exact hne this
          rw [List.getLast?_map, List.getLast?_eq_getLast _ hLne, Option.map_some']
          rw [List.getLast_eq_getElem]
          simp only [List.length_map, List.enum_length, List.getElem_map]
          rw [List.getElem_enum]
          show some (((cs.length - 1 : ℕ) : ℚ) / d) = some 1
          congr 1
          have hcast : ((cs.length - 1 : ℕ) : ℚ) = d := by
            rw [hd, Nat.cast_sub (by omega : 1 ≤ cs.length)]
            norm_num
          rw [hcast, div_self (by linarith)]
    · have ha' : anchors cs ≠ [] := ha
      rw [normalize_anchored hs' ha']
      set fx' := forceEnds cs.length (anchors cs) with hfx
      have hanch_bounds : ∀ p ∈ anchors cs, 0 ≤ p.2 ∧ p.2 ≤ 1 :=
        fun p hp => ⟨le_of_lt (anchors_mem hp).1, (anchors_mem hp).2.1⟩
      have hbnd : ∀ p ∈ fx', 0 ≤ p.2 ∧ p.2 ≤ 1 := by
        rw [hfx]; exact forceEnds_bounds hanch_bounds
      have hball : ∀ s ∈ sortStops (cs.enum.map
          (fun p => { p.2 with step := fillStep fx' p.1 })),
          0 ≤ s.step ∧ s.step ≤ 1 := by
        intro s hsm
        obtain ⟨p, hp, rfl⟩ := List.mem_map.mp ((sortStops_perm _).mem_iff.mp hsm)
        exact fillStep_bounds fx' p.1 hbnd
      refine ⟨sortStops_sorted _, hball, ?_⟩
      intro _
      constructor
      · intro hh
        have hzero : fillStep fx' 0 = 0 := by
          apply fillStep_zero_of_head
          rw [hfx]
          exact forceEnds_head ha' (anchors_ne_zero_idx hne hh)
        obtain ⟨a, t, hcons⟩ := List.exists_cons_of_ne_nil hne
        have hmem : ({ a with step := fillStep fx' 0 } : Stop ℚ) ∈
            cs.enum.map (fun p => { p.2 with step := fillStep fx' p.1 }) := by
          rw [hcons, List.enum_cons, List.map_cons]
          exact List.mem_cons_self _ _
        have hmem2 : ({ a with step := fillStep fx' 0 } : Stop ℚ) ∈
            sortStops (cs.enum.map (fun p => { p.2 with step := fillStep fx' p.1 })) :=
          (sortStops_perm _).mem_iff.mpr hmem
        exact sorted_map_head?_zero (sortStops_sorted _)
          (fun s h => (hball s h).1) hmem2 hzero
      · intro hl
        obtain ⟨fx1, hfx1, _⟩ := forceEnds_append ha' (anchors_ne_last_idx hne hl)
        have hne2 : fx' ≠ [] := by
          rw [hfx, hfx1]; simp
        have hpw : fx'.Pairwise (fun p q => p.1 < q.1) := by
          rw [hfx]
          exact forceEnds_pairwise hn2 (anchors_pairwise cs)
            (fun p hp => by
              have h1 := (anchors_mem hp).2.2
              have h2 := anchors_ne_last_idx hne hl p hp
              omega)
        have hglq : fx'.getLast? = some (cs.length - 1, 1) := by
          rw [hfx, hfx1]
          exact List.getLast?_concat _
        have hgl : fx'.getLast hne2 = (cs.length - 1, 1) := by
          have h3 := List.getLast?_eq_getLast fx' hne2
          rw [h3] at hglq
          exact Option.some.inj hglq
        have hfill : fillStep fx' (cs.length - 1) = 1 :=
          fillStep_getLast_eq hne2 hpw hgl
        have hidx : cs.length - 1 < cs.enum.length := by
          rw [List.enum_length]; omega
        have hmem : ({ cs.get ⟨cs.length - 1, by omega⟩ with
            step := fillStep fx' (cs.length - 1) } : Stop ℚ) ∈
            cs.enum.map (fun p => { p.2 with step := fillStep fx' p.1 }) := by
          have h0 := List.mem_map_of_mem
            (fun p : ℕ × Stop ℚ => { p.2 with step := fillStep fx' p.1 })
            (List.getElem_mem hidx)
          rw [List.getElem_enum] at h0
          simpa using h0
        have hmem2 := (sortStops_perm _).mem_iff.mpr hmem
        exact sorted_map_getLast?_one (sortStops_sorted _)
          (fun s h => (hball s h).2) hmem2 hfill

/-! ### Normalize invariants (claim C2) -/

unseal Rat.add Rat.mul Rat.inv Rat.sub in
/-- C2 counterexample: in the gradient (1/2, a), (0, b) the second position is
unspecified, yet after Normalize the first position is 1/2, not 0 — the code
forces an endpoint only when that end's own stop is unanchored. -/
theorem normalize_endpoints_counterexample :
    allSpecified [(⟨1/2, ⟨1, 0, 0, 255⟩⟩ : Stop ℚ), ⟨0, ⟨2, 0, 0, 255⟩⟩] = false ∧
    normalize [(⟨1/2, ⟨1, 0, 0, 255⟩⟩ : Stop ℚ), ⟨0, ⟨2, 0, 0, 255⟩⟩] =
      [⟨1/2, ⟨1, 0, 0, 255⟩⟩, ⟨1, ⟨2, 0, 0, 255⟩⟩] ∧
    ((1 : ℚ)/2) ≠ 0 :=
  ⟨by decide, by decide, by decide⟩

/-- C2 amended: for every gradient with at least two stops (or all positions
specified), Normalize yields positions sorted ascending within [0, 1]; and
when at least one position was unspecified, the first resulting position is 0
provided the first input stop's position was not positive, and the last is 1
provided the last input stop's position was not positive. -/
theorem normalize_invariants (cs : List (Stop ℚ)) (hne : cs ≠ [])
    (hsz : allSpecified cs = true ∨ 2 ≤ cs.length) :
    List.Sorted stepLE (normalize cs) ∧
    (∀ s ∈ normalize cs, 0 ≤ s.step ∧ s.step ≤ 1) ∧
    (allSpecified cs = false →
      ((cs.head hne).step ≤ 0 → ((normalize cs).map Stop.step).head? = some 0) ∧
      ((cs.getLast hne).step ≤ 0 →
        ((normalize cs).map Stop.step).getLast? = some 1)) :=
  normalize_master cs hne hsz

unseal Rat.add Rat.mul Rat.inv Rat.sub in
/-- Witness for C2's amended claim on the two-stop all-unspecified gradient. -/
theorem normalize_invariants_witness :
    List.Sorted stepLE (normalize [(⟨0, ⟨3, 0, 0, 255⟩⟩ : Stop ℚ), ⟨0, ⟨4, 0, 0, 255⟩⟩]) ∧
    (∀ s ∈ normalize [(⟨0, ⟨3, 0, 0, 255⟩⟩ : Stop ℚ), ⟨0, ⟨4, 0, 0, 255⟩⟩],
      0 ≤ s.step ∧ s.step ≤ 1) ∧
    ((normalize [(⟨0, ⟨3, 0, 0, 255⟩⟩ : Stop ℚ),
      ⟨0, ⟨4, 0, 0, 255⟩⟩]).map Stop.step).head? = some 0 ∧
    ((normalize [(⟨0, ⟨3, 0, 0, 255⟩⟩ : Stop ℚ),
      ⟨0, ⟨4, 0, 0, 255⟩⟩]).map Stop.step).getLast? = some 1 := by
  have h := normalize_invariants [(⟨0, ⟨3, 0, 0, 255⟩⟩ : Stop ℚ), ⟨0, ⟨4, 0, 0, 255⟩⟩]
    (by decide) (Or.inr (by decide))
  exact ⟨h.1, h.2.1, (h.2.2 (by decide)).1 (by decide), (h.2.2 (by decide)).2 (by decide)⟩

/-! ### Idempotence machinery (claim C7) -/

/-- With the head anchor at index 0 and all anchor steps positive, every
step of `forceEnds` is positive. -/
theorem forceEnds_pos {n : ℕ} {fx : List (ℕ × ℚ)}
    (h1 : fx.head?.map Prod.fst = some 0) (h : ∀ p ∈ fx, 0 < p.2) :
    ∀ p ∈ forceEnds n fx, 0 < p.2 := by
  intro p hp
  simp only [forceEnds, if_pos h1] at hp
  by_cases h2 : fx.getLast?.map Prod.fst = some (n - 1)
  · rw [if_pos h2] at hp; exact h p hp
  · rw [if_neg h2] at hp
    rcases List.mem_append.mp hp with hm | hm
    · exact h p hm
    · simp only [List.mem_singleton] at hm; subst hm; norm_num

/-- `forceEnds` of a nonempty anchor list is nonempty. -/
theorem forceEnds_ne_nil {n : ℕ} {fx : List (ℕ × ℚ)} (hne : fx ≠ []) :
    forceEnds n fx ≠ [] := by
  intro hcontra
  simp only [forceEnds] at hcontra
  by_cases h1 : fx.head?.map Prod.fst = some 0
  · rw [if_pos h1] at hcontra
    by_cases h2 : fx.getLast?.map Prod.fst = some (n - 1)
    · rw [if_pos h2] at hcontra; exact hne hcontra
    · rw [if_neg h2] at hcontra; simp at hcontra
  · rw [if_neg h1] at hcontra
    by_cases h2 : ((0, 0) :: fx).getLast?.map Prod.fst = some (n - 1)
    · rw [if_pos h2] at hcontra; simp at hcontra
    · rw [if_neg h2] at hcontra; simp at hcontra

/-- When no anchor has index 0, `forceEnds` is (0, 0) followed by the
anchors, possibly with the appended end. -/
theorem forceEnds_cons_zero {n : ℕ} {fx : List (ℕ × ℚ)} (hne : fx ≠ [])
    (h : ∀ p ∈ fx, p.1 ≠ 0) :
    ∃ fx2, forceEnds n fx = (0, 0) :: fx2 ∧ fx2 ≠ [] ∧
      ∀ p ∈ fx2, p ∈ fx ∨ p = (n - 1, 1) := by
  have h1 : ¬ fx.head?.map Prod.fst = some 0 := by
    cases fx with
    | nil => simp at hne
    | cons a t =>
      simp only [List.head?_cons, Option.map_some']
      intro hc
      exact h a (by simp) (by simpa using hc)
  simp only [forceEnds, if_neg h1]
  by_cases h2 : ((0, 0) :: fx).getLast?.map Prod.fst = some (n - 1)
  · rw [if_pos h2]
    exact ⟨fx, rfl, hne, fun p hp => Or.inl hp⟩
  · rw [if_neg h2, List.cons_append]
    refine ⟨fx ++ [(n - 1, 1)], rfl, by simp, ?_⟩
    intro p hp
    rcases List.mem_append.mp hp with hm | hm
    · exact Or.inl hm
    · simp only [List.mem_singleton] at hm; exact Or.inr hm

/-- With a positively positioned first stop, the first anchor is at index 0. -/
theorem anchors_head_of_pos {a : Stop ℚ} {t : List (Stop ℚ)} (hpos : 0 < a.step) :
    (anchors (a :: t)).head?.map Prod.fst = some 0 := by
  unfold anchors
  rw [List.enum_cons, List.filter_cons]
  simp [hpos]

/-- Shape of `normalize` under nonnegative inputs: either all result steps
are positive, or the head step is 0 and every later step is positive. -/
theorem normalize_shape (cs : List (Stop ℚ)) (hne : cs ≠ [])
    (hnn : ∀ s ∈ cs, 0 ≤ s.step)
    (hsz : allSpecified cs = true ∨ 2 ≤ cs.length) :
    (∀ s ∈ normalize cs, 0 < s.step) ∨
    (∃ a t, normalize cs = a :: t ∧ a.step = 0 ∧ t ≠ [] ∧
      ∀ s ∈ t, 0 < s.step) := by
  by_cases hs : allSpecified cs = true
  · left
    rw [normalize_allSpec hs]
    intro s hsm
    obtain ⟨c, hc, rfl⟩ := List.mem_map.mp hsm
    have hcm : c ∈ cs := (sortStops_perm cs).mem_iff.mp hc
    have hne0 : c.step ≠ 0 := of_decide_eq_true (List.all_eq_true.mp hs c hcm)
    exact clamp01_pos (lt_of_le_of_ne (hnn c hcm) (Ne.symm hne0))
  · have hs' : allSpecified cs = false := by
      cases hb : allSpecified cs
      · rfl
      · exact absurd hb hs
    have hn2 : 2 ≤ cs.length := hsz.resolve_left hs
    by_cases ha : anchors cs = []
    · right
      obtain ⟨a, t, rfl⟩ := List.exists_cons_of_ne_nil hne
      rw [normalize_evenly hs' ha]
      set d : ℚ := (((a :: t).length : ℚ)) - 1 with hd
      have hd1 : (1 : ℚ) ≤ d := by
        have h2 : (2 : ℚ) ≤ ((a :: t).length : ℚ) := by exact_mod_cast hn2
        rw [hd]; linarith
      refine ⟨_, _, by rw [List.enum_cons, List.map_cons], by simp, ?_, ?_⟩
      · intro hnil
        have := congrArg List.length hnil
        simp only [List.length_map, List.enumFrom_length, List.length_nil] at this
        simp only [List.length_cons] at hn2
        omega
      · intro s hsm
        obtain ⟨p, hp, rfl⟩ := List.mem_map.mp hsm
        obtain ⟨i, c⟩ := p
        have hb := List.mem_enumFrom hp
        show 0 < (i : ℚ) / d
        apply div_pos ?_ (by linarith)
        have : 1 ≤ i := hb.1
        exact_mod_cast Nat.lt_of_lt_of_le Nat.zero_lt_one this
    · have ha' : anchors cs ≠ [] := ha
      rcases (hnn (cs.head hne) (List.head_mem hne)).eq_or_lt with hzero | hpos
      · -- head step is 0: one zero at index 0, positives elsewhere
        right
        rw [normalize_anchored hs' ha']
        set fx' := forceEnds cs.length (anchors cs) with hfx
        obtain ⟨fx2, hsplit, hfx2ne, hfx2sub⟩ := forceEnds_cons_zero ha'
          (anchors_ne_zero_idx hne (le_of_eq hzero.symm))
        have hfx2pos : ∀ p ∈ fx2, 0 < p.2 := by
          intro p hp
          rcases hfx2sub p hp with hm | hm
          · exact (anchors_mem hm).1
          · subst hm; norm_num
        have hbnd : ∀ p ∈ fx', 0 ≤ p.2 ∧ p.2 ≤ 1 := by
          rw [hfx]
          exact forceEnds_bounds
            (fun p hp => ⟨le_of_lt (anchors_mem hp).1, (anchors_mem hp).2.1⟩)
        have hfill0 : fillStep fx' 0 = 0 := by
          apply fillStep_zero_of_head
          rw [hfx, hsplit]
          rfl
        have hfillpos : ∀ i, 1 ≤ i → 0 < fillStep fx' i := by
          intro i hi
          rw [hfx, hsplit]
          exact fillStep_cons_zero_pos hfx2ne hfx2pos hi
        obtain ⟨a, t, hcons⟩ := List.exists_cons_of_ne_nil hne
        have hcount : (cs.enum.map (fun p =>
            ({ p.2 with step := fillStep fx' p.1 } : Stop ℚ))).countP
              (fun s => decide (s.step = 0)) = 1 := by
          rw [List.countP_map, hcons, List.enum_cons, List.countP_cons]
          have hz : (List.enumFrom 1 t).countP
              ((fun s => decide (s.step = 0)) ∘ (fun p : ℕ × Stop ℚ =>
                ({ p.2 with step := fillStep fx' p.1 } : Stop ℚ))) = 0 := by
            rw [List.countP_eq_zero]
            intro p hp
            have h1 : 1 ≤ p.1 := (List.mem_enumFrom hp).1
            simp only [Function.comp_apply, decide_eq_true_eq]
            exact ne_of_gt (hfillpos p.1 h1)
          rw [hz]
          simp [hfill0]
        have hcount2 : (sortStops (cs.enum.map (fun p =>
            ({ p.2 with step := fillStep fx' p.1 } : Stop ℚ)))).countP
              (fun s => decide (s.step = 0)) = 1 := by
          rw [(sortStops_perm _).countP_eq]
          exact hcount
        have hlen : (sortStops (cs.enum.map (fun p =>
            ({ p.2 with step := fillStep fx' p.1 } : Stop ℚ)))).length = cs.length := by
          rw [sortStops, List.length_insertionSort, List.length_map, List.enum_length]
        have hsne : sortStops (cs.enum.map (fun p =>
            ({ p.2 with step := fillStep fx' p.1 } : Stop ℚ))) ≠ [] := by
          intro hnil
          rw [hnil] at hlen
          simp at hlen
          omega
        obtain ⟨a0, t0, hsort⟩ := List.exists_cons_of_ne_nil hsne
        have hmem0 : ({ a with step := fillStep fx' 0 } : Stop ℚ) ∈
            cs.enum.map (fun p => ({ p.2 with step := fillStep fx' p.1 } : Stop ℚ)) := by
          rw [hcons, List.enum_cons, List.map_cons]
          exact List.mem_cons_self _ _
        have hmem0' : ({ a with step := (0 : ℚ) } : Stop ℚ) ∈
            sortStops (cs.enum.map (fun p =>
              ({ p.2 with step := fillStep fx' p.1 } : Stop ℚ))) := by
          rw [← hfill0]
          exact (sortStops_perm _).mem_iff.mpr hmem0
        have hbounds0 : ∀ s ∈ sortStops (cs.enum.map (fun p =>
            ({ p.2 with step := fillStep fx' p.1 } : Stop ℚ))), 0 ≤ s.step := by
          intro s hs2
          obtain ⟨p, hp, rfl⟩ := List.mem_map.mp ((sortStops_perm _).mem_iff.mp hs2)
          exact (fillStep_bounds fx' p.1 hbnd).1
        have ha0 : a0.step = 0 := by
          have h0 := sorted_map_head?_zero (sortStops_sorted _) hbounds0 hmem0' rfl
          rw [hsort] at h0
          simpa using h0
        have hz0 : t0.countP (fun s => decide (s.step = 0)) = 0 := by
          rw [hsort, List.countP_cons] at hcount2
          have hda : decide (a0.step = (0 : ℚ)) = true := decide_eq_true ha0
          rw [hda, if_pos rfl] at hcount2
          omega
        refine ⟨a0, t0, hsort, ha0, ?_, ?_⟩
        · intro hnil
          rw [hsort, hnil] at hlen
          simp at hlen
          omega
        · intro s hs2
          have hne0 : s.step ≠ 0 := by
            have := List.countP_eq_zero.mp hz0 s hs2
            simpa using this
          have hmem : s ∈ sortStops (cs.enum.map (fun p =>
              ({ p.2 with step := fillStep fx' p.1 } : Stop ℚ))) := by
            rw [hsort]
            exact List.mem_cons_of_mem _ hs2
          exact lt_of_le_of_ne (hbounds0 s hmem) (Ne.symm hne0)
      · -- head step positive: everything positive
        left
        rw [normalize_anchored hs' ha']
        intro s hsm
        obtain ⟨p, hp, rfl⟩ := List.mem_map.mp ((sortStops_perm _).mem_iff.mp hsm)
        show 0 < fillStep (forceEnds cs.length (anchors cs)) p.1
        apply fillStep_pos_of_all_pos _ _ (forceEnds_ne_nil ha')
        apply forceEnds_pos ?_ (fun q hq => (anchors_mem hq).1)
        obtain ⟨a, t, hcons⟩ := List.exists_cons_of_ne_nil hne
        subst hcons
        exact anchors_head_of_pos hpos

/-- Normalize is the identity on sorted lists of positive steps at most 1. -/
theorem normalize_fixed_all_pos {r : List (Stop ℚ)} (hs : List.Sorted stepLE r)
    (hpos : ∀ s ∈ r, 0 < s.step) (hb1 : ∀ s ∈ r, s.step ≤ 1) :
    normalize r = r := by
  have hall : allSpecified r = true := by
    rw [allSpecified, List.all_eq_true]
    intro c hc
    exact decide_eq_true (ne_of_gt (hpos c hc))
  rw [normalize_allSpec hall, sortStops_eq_self hs]
  have hid : ∀ c ∈ r, ({ c with step := clamp01 c.step } : Stop ℚ) = c := by
    intro c hc
    have h1 := clamp01_eq_self (le_of_lt (hpos c hc)) (hb1 c hc)
    cases c
    simp only at h1
    simp [h1]
  rw [List.map_congr_left hid]
  simp

/-- The last element of an enumerated-and-projected stop list. -/
theorem getLast?_enumFrom_map (k : ℕ) (l : List (Stop ℚ)) (hne : l ≠ []) :
    ((List.enumFrom k l).map (fun p => (p.1, p.2.step))).getLast? =
      some (k + (l.length - 1), (l.getLast hne).step) := by
  have hne2 : (List.enumFrom k l).map (fun p => (p.1, p.2.step)) ≠ [] := by
    intro hc
    have hlen := congrArg List.length hc
    simp only [List.length_map, List.enumFrom_length, List.length_nil] at hlen
    exact hne (List.eq_nil_of_length_eq_zero hlen)
  rw [List.getLast?_eq_getLast _ hne2, List.getLast_eq_getElem]
  simp only [List.length_map, List.enumFrom_length, List.getElem_map,
    List.getElem_enumFrom]
  rw [List.getLast_eq_getElem l hne]

/-- Normalize is the identity on a sorted list with a zero-step head followed
by positive steps at most 1. -/
theorem normalize_fixed_head_zero {a : Stop ℚ} {t : List (Stop ℚ)}
    (hs : List.Sorted stepLE (a :: t)) (ha : a.step = 0) (htne : t ≠ [])
    (hpos : ∀ s ∈ t, 0 < s.step) (hb1 : ∀ s ∈ a :: t, s.step ≤ 1) :
    normalize (a :: t) = a :: t := by
  have hallspec : allSpecified (a :: t) = false := by
    simp [allSpecified, ha]
  have hanch : anchors (a :: t) =
      (List.enumFrom 1 t).map (fun p => (p.1, p.2.step)) := by
    unfold anchors
    rw [List.enum_cons, List.filter_cons_of_neg (by simp [ha])]
    rw [List.filter_eq_self.mpr ?_]
    · apply List.map_congr_left
      rintro ⟨i, c⟩ hp
      have hmem := List.mem_enumFrom hp
      have hct : c ∈ t := by
        have hc2 := hmem.2.2
        simp only at hc2
        rw [hc2]
        exact List.getElem_mem _
      have hle : c.step ≤ 1 := hb1 c (List.mem_cons_of_mem a hct)
      simp only
      rw [anchorClamp, if_neg (not_lt.mpr hle)]
    · rintro ⟨i, c⟩ hp
      have hmem := List.mem_enumFrom hp
      have hct : c ∈ t := by
        have hc2 := hmem.2.2
        simp only at hc2
        rw [hc2]
        exact List.getElem_mem _
      exact decide_eq_true (hpos c hct)
  have hfxne : (List.enumFrom 1 t).map
      (fun p : ℕ × Stop ℚ => (p.1, p.2.step)) ≠ [] := by
    intro hc
    have hlen := congrArg List.length hc
    simp only [List.length_map, List.enumFrom_length, List.length_nil] at hlen
    exact htne (List.eq_nil_of_length_eq_zero hlen)
  have hanchne : anchors (a :: t) ≠ [] := by
    rw [hanch]; exact hfxne
  have hforce : forceEnds (a :: t).length (anchors (a :: t)) =
      (0, 0) :: (List.enumFrom 1 t).map (fun p => (p.1, p.2.step)) := by
    rw [hanch]
    simp only [forceEnds]
    have hc1 : ¬ ((List.enumFrom 1 t).map
        (fun p : ℕ × Stop ℚ => (p.1, p.2.step))).head?.map Prod.fst = some 0 := by
      obtain ⟨b, t2, rfl⟩ := List.exists_cons_of_ne_nil htne
      simp [List.enumFrom_cons]
    rw [if_neg hc1]
    have hfxlast : ((List.enumFrom 1 t).map
        (fun p : ℕ × Stop ℚ => (p.1, p.2.step))).getLast? =
        some (1 + (t.length - 1), (t.getLast htne).step) :=
      getLast?_enumFrom_map 1 t htne
    have hconslast : ((0, 0) :: (List.enumFrom 1 t).map
        (fun p : ℕ × Stop ℚ => (p.1, p.2.step))).getLast? =
        some (1 + (t.length - 1), (t.getLast htne).step) := by
      rw [List.getLast?_eq_getLast _ (List.cons_ne_nil _ _),
        List.getLast_cons hfxne, ← List.getLast?_eq_getLast _ hfxne]
      exact hfxlast
    rw [if_pos (by
      rw [hconslast, Option.map_some']
      show some (1 + (t.length - 1)) = some ((a :: t).length - 1)
      have hlp := List.length_pos.mpr htne
      simp only [List.length_cons]
      congr 1
      omega)]
  have hfx'eq : (0, 0) :: (List.enumFrom 1 t).map
      (fun p : ℕ × Stop ℚ => (p.1, p.2.step)) =
      List.enumFrom 0 ((a :: t).map Stop.step) := by
    rw [List.map_cons, List.enumFrom_cons, List.enumFrom_map]
    have htail : (List.enumFrom 1 t).map (Prod.map id Stop.step) =
        (List.enumFrom 1 t).map (fun p : ℕ × Stop ℚ => (p.1, p.2.step)) := by
      apply List.map_congr_left
      rintro ⟨i, c⟩ _
      rfl
    rw [htail, ha]
  have hfilled : (a :: t).enum.map
      (fun p => ({ p.2 with step := fillStep ((0, 0) :: (List.enumFrom 1 t).map
        (fun q : ℕ × Stop ℚ => (q.1, q.2.step))) p.1 } : Stop ℚ)) = a :: t := by
    apply List.ext_getElem
    · simp
    · intro i h1 h2
      simp only [List.getElem_map, List.getElem_enum]
      have hlt : i - 0 < ((a :: t).map Stop.step).length := by
        simp only [List.length_map]
        simpa using h2
      have hfill : fillStep ((0, 0) :: (List.enumFrom 1 t).map
          (fun q : ℕ × Stop ℚ => (q.1, q.2.step))) i =
          ((a :: t).map Stop.step).get ⟨i - 0, hlt⟩ := by
        rw [hfx'eq]
        exact fillStep_enumFrom ((a :: t).map Stop.step) 0 i (Nat.zero_le i) hlt
      rw [hfill]
      rw [List.get_eq_getElem, List.getElem_map]
      rfl
  rw [normalize_anchored hallspec hanchne, hforce, hfilled, sortStops_eq_self hs]

unseal Rat.add Rat.mul Rat.inv Rat.sub in
/-- C7 counterexample: on stops at -1, -1, 1/2 one Normalize gives positions
0, 0, 1/2 (all specified: sort then clamp), but a second Normalize sees the
clamped zeros as "unspecified" and redistributes them to 0, 1/4, 1/2. -/
theorem normalize_not_idempotent_counterexample :
    normalize (normalize [(⟨-1, ⟨1, 1, 1, 255⟩⟩ : Stop ℚ), ⟨-1, ⟨2, 2, 2, 255⟩⟩,
      ⟨1/2, ⟨3, 3, 3, 255⟩⟩]) ≠
    normalize [(⟨-1, ⟨1, 1, 1, 255⟩⟩ : Stop ℚ), ⟨-1, ⟨2, 2, 2, 255⟩⟩,
      ⟨1/2, ⟨3, 3, 3, 255⟩⟩] := by decide

/-- C7 amended: Normalize is idempotent on every gradient whose stop
positions are all nonnegative (with at least two stops when a position is 0,
avoiding the degenerate single-unspecified-stop 0/0). Negative positions
break idempotence: they get clamped to 0 and a second pass mistakes them for
unspecified. -/
theorem normalize_idempotent (cs : List (Stop ℚ))
    (hnn : ∀ s ∈ cs, 0 ≤ s.step)
    (hsz : allSpecified cs = true ∨ 2 ≤ cs.length) :
    normalize (normalize cs) = normalize cs := by
  rcases eq_or_ne cs [] with rfl | hne
  · simp [normalize]
  · have hm := normalize_master cs hne hsz
    rcases normalize_shape cs hne hnn hsz with hpos | ⟨a, t, heq, ha, htne, hpos⟩
    · exact normalize_fixed_all_pos hm.1 hpos (fun s h => (hm.2.1 s h).2)
    · rw [heq]
      have hs1 := hm.1
      rw [heq] at hs1
      have hb1 : ∀ s ∈ a :: t, s.step ≤ 1 := by
        intro s h
        have h2 : s ∈ normalize cs := by rw [heq]; exact h
        exact (hm.2.1 s h2).2
      exact normalize_fixed_head_zero hs1 ha htne hpos hb1

unseal Rat.add Rat.mul Rat.inv Rat.sub in
/-- Witness for C7's amended claim on the gradient (0, x), (1/2, y). -/
theorem normalize_idempotent_witness :
    normalize (normalize [(⟨0, ⟨5, 0, 0, 255⟩⟩ : Stop ℚ), ⟨1/2, ⟨6, 0, 0, 255⟩⟩]) =
      normalize [(⟨0, ⟨5, 0, 0, 255⟩⟩ : Stop ℚ), ⟨1/2, ⟨6, 0, 0, 255⟩⟩] :=
  normalize_idempotent [(⟨0, ⟨5, 0, 0, 255⟩⟩ : Stop ℚ), ⟨1/2, ⟨6, 0, 0, 255⟩⟩]
    (by decide) (Or.inr (by decide))

end Mandelbrot
